import Mathlib

/-!
Verification development for the Fourier-transform option-pricing notebooks.

The definitions below are a shallow embedding, over exact real and complex
numbers, of the numerical code of the repository:

* `payoff_g`, `Gsource`, `payoffG` embed the function `payoff` of the Merton
  jump-diffusion Fourier-pricing notebook (damped payoff, its closed-form
  Fourier transform, and the zero-frequency-bin replacement for
  `alpha ∈ {0, -1}`).
* `muRN`, `psiJD`, `charJD` embed the risk-neutral drift, the characteristic
  exponent and the characteristic function of the jump-diffusion model.
* `dxStep`, `dxiStep`, `xGrid`, `xiGrid` embed the real-space and
  frequency-space grid construction.
* `dftN`, `ifftshiftN`, `fftshiftN`, `trapzC`, `trapzR` embed `np.fft.fft`,
  `np.fft.ifftshift`, `np.fft.fftshift` and `np.trapz` (unit spacing), at the
  even grid lengths the notebook uses; `priceFFT`, `priceFFT2`, `priceTrapz`
  and `recoverDensity` embed the three Plancherel pricing cells and the
  density-recovery cell.
* `f_Heston` embeds the Heston characteristic function of the stochastic
  volatility notebook.

Division by zero, which in the floating-point source produces `inf`/`nan`,
is modelled by Lean's total division (`x / 0 = 0`); every statement whose
truth value could depend on that convention is commented at the point of use.
-/

open Complex Finset

noncomputable section

namespace OptionPricing

/-! ## Payoff transform (`payoff` in the Fourier-pricing notebook) -/

/-- Damped real-space payoff: `exp(alpha*x) * max(±(S-K),0) * (S>=L) * (S<=U)`
with `S = C*exp(x)`, sign per call/put. -/
def payoff_g (alpha K L U C : ℝ) (call : Bool) (x : ℝ) : ℝ :=
  let S : ℝ := C * Real.exp x
  (if call then Real.exp (alpha * x) * max (S - K) 0
   else Real.exp (alpha * x) * max (K - S) 0) *
    (if L ≤ S then 1 else 0) * (if S ≤ U then 1 else 0)

/-- Lower integration bound: `max(l, k)` for a call, `min(k, u)` for a put,
where `l = log(L/C)`, `k = log(K/C)`, `u = log(U/C)`. -/
def intervalA (K L U C : ℝ) (call : Bool) : ℝ :=
  if call then max (Real.log (L / C)) (Real.log (K / C))
  else min (Real.log (K / C)) (Real.log (U / C))

/-- Upper integration bound: `u` for a call, `l` for a put. -/
def intervalB (L U C : ℝ) (call : Bool) : ℝ :=
  if call then Real.log (U / C) else Real.log (L / C)

/-- General-formula entry of the transform, exactly as in the source:
`C*((exp(b*(1+xi2)) - exp(a*(1+xi2)))/(1+xi2) - (exp(k+b*xi2) - exp(k+a*xi2))/xi2)`
with `xi2 = alpha + i*xi`. -/
def Gsource (alpha K L U C : ℝ) (call : Bool) (xi : ℝ) : ℂ :=
  let k : ℝ := Real.log (K / C)
  let a : ℝ := intervalA K L U C call
  let b : ℝ := intervalB L U C call
  let xi2 : ℂ := (alpha : ℂ) + (xi : ℂ) * I
  (C : ℂ) *
    ((Complex.exp ((b : ℂ) * (1 + xi2)) - Complex.exp ((a : ℂ) * (1 + xi2))) / (1 + xi2) -
      (Complex.exp ((k : ℂ) + (b : ℂ) * xi2) - Complex.exp ((k : ℂ) + (a : ℂ) * xi2)) / xi2)

/-- The transform array returned by `payoff`: the general formula at every
index, except that index `floor(n/2)` is replaced by the analytic limit when
`alpha = 0` or `alpha = -1`. -/
def payoffG (n : ℕ) (xi : ℕ → ℝ) (alpha K L U C : ℝ) (call : Bool) (i : ℕ) : ℂ :=
  let k : ℝ := Real.log (K / C)
  let a : ℝ := intervalA K L U C call
  let b : ℝ := intervalB L U C call
  if alpha = 0 ∧ i = n / 2 then
    ((C * (Real.exp b - Real.exp a - Real.exp k * (b - a)) : ℝ) : ℂ)
  else if alpha = -1 ∧ i = n / 2 then
    ((C * (b - a + Real.exp (k - b) - Real.exp (k - a)) : ℝ) : ℂ)
  else Gsource alpha K L U C call (xi i)

/-- The closed form exactly as the specification states it:
`scale*[(exp(b(1+α+iξ)) - exp(a(1+α+iξ)))/(1+α+iξ) - exp(k)(exp(b(α+iξ)) - exp(a(α+iξ)))/(α+iξ)]`. -/
def Gclaim (alpha K L U scale : ℝ) (call : Bool) (xi : ℝ) : ℂ :=
  let k : ℝ := Real.log (K / scale)
  let a : ℝ := intervalA K L U scale call
  let b : ℝ := intervalB L U scale call
  let z : ℂ := 1 + (alpha : ℂ) + (xi : ℂ) * I
  let w : ℂ := (alpha : ℂ) + (xi : ℂ) * I
  (scale : ℂ) *
    ((Complex.exp ((b : ℂ) * z) - Complex.exp ((a : ℂ) * z)) / z -
      Complex.exp (k : ℂ) * (Complex.exp ((b : ℂ) * w) - Complex.exp ((a : ℂ) * w)) / w)

/-! ## Jump-diffusion characteristic function -/

/-- Risk-neutral drift: `r - q - 0.5*sigma^2 - lmbda*(exp(mu_j + 0.5*sigma_j^2) - 1)`. -/
def muRN (r q sigma lmbda mu_j sigma_j : ℝ) : ℝ :=
  r - q - 0.5 * sigma ^ 2 - lmbda * (Real.exp (mu_j + 0.5 * sigma_j ^ 2) - 1)

/-- Characteristic exponent per unit time:
`i*muRN*z - 0.5*(sigma*z)^2 + lmbda*(exp(i*mu_j*z - 0.5*(sigma_j*z)^2) - 1)`. -/
def psiJD (r q sigma lmbda mu_j sigma_j : ℝ) (z : ℂ) : ℂ :=
  I * (muRN r q sigma lmbda mu_j sigma_j : ℂ) * z - 0.5 * ((sigma : ℂ) * z) ^ 2 +
    (lmbda : ℂ) * (Complex.exp (I * (mu_j : ℂ) * z - 0.5 * ((sigma_j : ℂ) * z) ^ 2) - 1)

/-- Characteristic function at maturity `T`: `exp(psi*T)`. -/
def charJD (r q sigma lmbda mu_j sigma_j T : ℝ) (z : ℂ) : ℂ :=
  Complex.exp (psiJD r q sigma lmbda mu_j sigma_j z * (T : ℂ))

/-- Diffusion characteristic exponent `i*z*mu*T - 0.5*(sigma*z)^2*T` for a given
drift `mu`, as in the specification of the diffusion variant. -/
def diffusionExponent (mu sigma T : ℝ) (z : ℂ) : ℂ :=
  I * (mu : ℂ) * z * (T : ℂ) - 0.5 * ((sigma : ℂ) * z) ^ 2 * (T : ℂ)

/-! ## Grid construction -/

/-- Real-space step `dx = xwidth/ngrid`. -/
def dxStep (xwidth : ℝ) (ngrid : ℕ) : ℝ := xwidth / ngrid

/-- Frequency step `dxi = 2*pi/xwidth` (Nyquist relation). -/
def dxiStep (xwidth : ℝ) : ℝ := 2 * Real.pi / xwidth

/-- Real-space grid `dx * linspace(-N, N-1, 2N)` with `N = ngrid/2` (integer
division, as `int(ngrid/2)` in the source). -/
def xGrid (xwidth : ℝ) (ngrid : ℕ) : List ℝ :=
  (List.range (2 * (ngrid / 2))).map fun j : ℕ =>
    dxStep xwidth ngrid * ((j : ℝ) - ((ngrid / 2 : ℕ) : ℝ))

/-- Frequency grid `dxi * linspace(-N, N-1, 2N)` with `N = ngrid/2`. -/
def xiGrid (xwidth : ℝ) (ngrid : ℕ) : List ℝ :=
  (List.range (2 * (ngrid / 2))).map fun j : ℕ =>
    dxiStep xwidth * ((j : ℝ) - ((ngrid / 2 : ℕ) : ℝ))

/-! ## Discrete transform and pricing forms -/

/-- Unnormalized forward DFT, `np.fft.fft`: `F_m = sum_k v_k exp(-2*pi*i*m*k/n)`. -/
def dftN (n : ℕ) (v : ℕ → ℂ) (m : ℕ) : ℂ :=
  ∑ k ∈ Finset.range n, v k * Complex.exp (-(2 * (Real.pi : ℂ) * I * (m : ℂ) * (k : ℂ)) / (n : ℂ))

/-- `np.fft.ifftshift` (roll by `-(n/2)`): entry `k` reads input entry `(k + n/2) % n`.
For the even lengths the notebook uses this is the half-swap. -/
def ifftshiftN (n : ℕ) (v : ℕ → ℂ) (k : ℕ) : ℂ := v ((k + n / 2) % n)

/-- `np.fft.fftshift` (roll by `+(n/2)`): entry `j` reads input entry `(j - n/2) % n`,
written with natural subtraction as `(j + (n - n/2)) % n`. -/
def fftshiftN (n : ℕ) (v : ℕ → ℂ) (j : ℕ) : ℂ := v ((j + (n - n / 2)) % n)

/-- `np.trapz` with unit spacing on a complex array of length `n`. -/
def trapzC (n : ℕ) (y : ℕ → ℂ) : ℂ :=
  ∑ k ∈ Finset.range (n - 1), (y k + y (k + 1)) / 2

/-- `np.trapz` with unit spacing on a real array of length `n`. -/
def trapzR (n : ℕ) (y : ℕ → ℝ) : ℝ :=
  ∑ k ∈ Finset.range (n - 1), (y k + y (k + 1)) / 2

/-- Plancherel pricing array `discount*Re{fftshift(fft(ifftshift(G*conj(psi))))}/width`,
read off at the spot (grid point `x = 0`, index `n/2`). -/
def priceFFT (n : ℕ) (G psi : ℕ → ℂ) (discount width : ℝ) : ℝ :=
  discount *
    (fftshiftN n (dftN n (ifftshiftN n fun k => G k * (starRingEnd ℂ) (psi k))) (n / 2)).re /
    width

/-- Same pricing form with the conjugate moved to the payoff transform:
`discount*Re{fftshift(fft(ifftshift(conj(G)*psi)))}/width`, read off at the spot. -/
def priceFFT2 (n : ℕ) (G psi : ℕ → ℂ) (discount width : ℝ) : ℝ :=
  discount *
    (fftshiftN n (dftN n (ifftshiftN n fun k => (starRingEnd ℂ) (G k) * psi k)) (n / 2)).re /
    width

/-- Direct-integration pricing form `discount*Re{trapz(conj(G)*psi)}/width`. -/
def priceTrapz (n : ℕ) (G psi : ℕ → ℂ) (discount width : ℝ) : ℝ :=
  discount * (trapzC n fun k => (starRingEnd ℂ) (G k) * psi k).re / width

/-- Recovered terminal density `Re{fftshift(fft(ifftshift(psi)))}/width` at index `k`. -/
def recoverDensity (n : ℕ) (psi : ℕ → ℂ) (width : ℝ) (k : ℕ) : ℝ :=
  (fftshiftN n (dftN n (ifftshiftN n psi)) k).re / width

/-! ## Heston characteristic function (`f_Heston` in the Heston notebook) -/

/-- Heston characteristic function `f_Heston(phi, S0, v0, T, r, q, kappa, theta,
sigma, rho, lmbda, j)`, with `np.sqrt` on a complex argument embedded as the
principal power `^(1/2)`. -/
def f_Heston (phi S0 v0 T r q kappa theta sigma rho lmbda : ℝ) (j : ℕ) : ℂ :=
  let u : ℝ := if j = 1 then 0.5 else -0.5
  let b : ℝ := if j = 1 then kappa + lmbda - rho * sigma else kappa + lmbda
  let a : ℝ := kappa * theta
  let d : ℂ := (((rho * sigma : ℝ) : ℂ) * (phi : ℂ) * I - (b : ℂ)) ^ 2 -
      ((sigma : ℝ) : ℂ) ^ 2 * (2 * (u : ℂ) * (phi : ℂ) * I - (phi : ℂ) ^ 2)
  let dRt : ℂ := d ^ ((1 : ℂ) / 2)
  let g : ℂ := ((b : ℂ) - ((rho * sigma : ℝ) : ℂ) * (phi : ℂ) * I + dRt) /
      ((b : ℂ) - ((rho * sigma : ℝ) : ℂ) * (phi : ℂ) * I - dRt)
  let Cv : ℂ := ((r - q : ℝ) : ℂ) * (phi : ℂ) * I * (T : ℂ) +
      ((a : ℝ) : ℂ) / ((sigma : ℝ) : ℂ) ^ 2 *
        (((b : ℂ) - ((rho * sigma : ℝ) : ℂ) * (phi : ℂ) * I + dRt) * (T : ℂ) -
          2 * Complex.log ((1 - g * Complex.exp (dRt * (T : ℂ))) / (1 - g)))
  let Dv : ℂ := ((b : ℂ) - ((rho * sigma : ℝ) : ℂ) * (phi : ℂ) * I + dRt) / ((sigma : ℝ) : ℂ) ^ 2 *
      ((1 - Complex.exp (dRt * (T : ℂ))) / (1 - g * Complex.exp (dRt * (T : ℂ))))
  Complex.exp (Cv + Dv * (v0 : ℂ) + I * (phi : ℂ) * ((Real.log S0 : ℝ) : ℂ))

/-! ## Theorems -/

/-- Claim C3: the jump-diffusion characteristic exponent (over maturity `T`)
equals the diffusion exponent with compensated drift
`r - q - 0.5*sigma^2 - lmbda*(exp(mu_J + 0.5*sigma_J^2) - 1)` plus the
compound-Poisson term `lmbda*T*(exp(i*z*mu_J - 0.5*z^2*sigma_J^2) - 1)`. -/
theorem jump_diffusion_exponent_decomposition
    (r q sigma lmbda mu_j sigma_j T : ℝ) (z : ℂ) :
    psiJD r q sigma lmbda mu_j sigma_j z * (T : ℂ) =
      diffusionExponent (muRN r q sigma lmbda mu_j sigma_j) sigma T z +
        (lmbda : ℂ) * (T : ℂ) *
          (Complex.exp (I * z * (mu_j : ℂ) - 0.5 * z ^ 2 * (sigma_j : ℂ) ^ 2) - 1) ∧
    muRN r q sigma lmbda mu_j sigma_j =
      r - q - 0.5 * sigma ^ 2 - lmbda * (Real.exp (mu_j + 0.5 * sigma_j ^ 2) - 1) := by
  constructor
  · unfold psiJD diffusionExponent
    have harg : I * (mu_j : ℂ) * z - 0.5 * ((sigma_j : ℂ) * z) ^ 2 =
        I * z * (mu_j : ℂ) - 0.5 * z ^ 2 * (sigma_j : ℂ) ^ 2 := by ring
    rw [harg]; ring
  · rfl

/-- Claim C4: with half-width `b = w/2` and grid size `n` (even, positive), the
constructed grids satisfy `dx = 2b/n`, `dxi = 2*pi/(2b)`, both grids have `n`
points of the stated form, and the Nyquist invariant `dx*dxi = 2*pi/n` holds
exactly. -/
theorem grid_nyquist (w : ℝ) (n : ℕ) (hw : 0 < w) (hn : 0 < n) (h2 : n % 2 = 0) :
    dxStep w n = 2 * (w / 2) / n ∧
    dxiStep w = 2 * Real.pi / (2 * (w / 2)) ∧
    (xGrid w n).length = n ∧
    (xiGrid w n).length = n ∧
    (∀ jh : ℕ, ∀ h : jh < (xGrid w n).length,
      (xGrid w n).get ⟨jh, h⟩ = dxStep w n * ((jh : ℝ) - ((n / 2 : ℕ) : ℝ))) ∧
    (∀ jh : ℕ, ∀ h : jh < (xiGrid w n).length,
      (xiGrid w n).get ⟨jh, h⟩ = dxiStep w * ((jh : ℝ) - ((n / 2 : ℕ) : ℝ))) ∧
    dxStep w n * dxiStep w = 2 * Real.pi / n := by
  have hlen : 2 * (n / 2) = n := by omega
  have hw0 : w ≠ 0 := ne_of_gt hw
  have hn0 : (n : ℝ) ≠ 0 := Nat.cast_ne_zero.mpr hn.ne'
  refine ⟨by rw [dxStep]; ring, by rw [dxiStep]; ring, ?_, ?_, ?_, ?_, ?_⟩
  · simp only [xGrid, List.length_map, List.length_range]; exact hlen
  · simp only [xiGrid, List.length_map, List.length_range]; exact hlen
  · intro jh h
    simp only [xGrid, List.get_eq_getElem, List.getElem_map, List.getElem_range]
  · intro jh h
    simp only [xiGrid, List.get_eq_getElem, List.getElem_map, List.getElem_range]
  · unfold dxStep dxiStep
    field_simp
    ring

/-- Witness for `grid_nyquist` at `w = 6`, `n = 8`. -/
theorem grid_nyquist_witness :
    dxStep 6 8 = 2 * (6 / 2) / 8 ∧
    dxiStep 6 = 2 * Real.pi / (2 * (6 / 2)) ∧
    (xGrid 6 8).length = 8 ∧
    (xiGrid 6 8).length = 8 ∧
    (∀ jh : ℕ, ∀ h : jh < (xGrid 6 8).length,
      (xGrid 6 8).get ⟨jh, h⟩ = dxStep 6 8 * ((jh : ℝ) - ((8 / 2 : ℕ) : ℝ))) ∧
    (∀ jh : ℕ, ∀ h : jh < (xiGrid 6 8).length,
      (xiGrid 6 8).get ⟨jh, h⟩ = dxiStep 6 * ((jh : ℝ) - ((8 / 2 : ℕ) : ℝ))) ∧
    dxStep 6 8 * dxiStep 6 = 2 * Real.pi / 8 := by
  have h := grid_nyquist 6 8 (by norm_num) (by norm_num) (by norm_num)
  simpa using h

/-- Claim C2: when `alpha = 0` or `alpha = -1`, the entry of the returned
transform at the zero-frequency bin `n/2` is the analytic limiting closed form
(`C*(exp(b)-exp(a)-exp(k)*(b-a))` for `alpha = 0`,
`C*(b-a+exp(k-b)-exp(k-a))` for `alpha = -1`), a well-defined real number
(imaginary part `0`); the `0/0` of the general formula never arises there, so
the zero-frequency entry is finite in the embedding. -/
theorem payoff_zero_bin (n : ℕ) (xi : ℕ → ℝ) (K L U C : ℝ) (call : Bool) :
    payoffG n xi 0 K L U C call (n / 2) =
      ((C * (Real.exp (intervalB L U C call) - Real.exp (intervalA K L U C call) -
        Real.exp (Real.log (K / C)) * (intervalB L U C call - intervalA K L U C call)) : ℝ) : ℂ) ∧
    payoffG n xi (-1) K L U C call (n / 2) =
      ((C * (intervalB L U C call - intervalA K L U C call +
        Real.exp (Real.log (K / C) - intervalB L U C call) -
        Real.exp (Real.log (K / C) - intervalA K L U C call)) : ℝ) : ℂ) ∧
    (payoffG n xi 0 K L U C call (n / 2)).im = 0 ∧
    (payoffG n xi (-1) K L U C call (n / 2)).im = 0 := by
  have h0 : payoffG n xi 0 K L U C call (n / 2) =
      ((C * (Real.exp (intervalB L U C call) - Real.exp (intervalA K L U C call) -
        Real.exp (Real.log (K / C)) * (intervalB L U C call - intervalA K L U C call)) : ℝ) : ℂ) := by
    unfold payoffG
    rw [if_pos ⟨rfl, rfl⟩]
  have h1 : payoffG n xi (-1) K L U C call (n / 2) =
      ((C * (intervalB L U C call - intervalA K L U C call +
        Real.exp (Real.log (K / C) - intervalB L U C call) -
        Real.exp (Real.log (K / C) - intervalA K L U C call)) : ℝ) : ℂ) := by
    unfold payoffG
    rw [if_neg (by norm_num), if_pos ⟨rfl, rfl⟩]
  exact ⟨h0, h1, by rw [h0]; exact Complex.ofReal_im _, by rw [h1]; exact Complex.ofReal_im _⟩

/-- The source's general formula and the specification's closed form agree at
every frequency point: `exp(k + b*xi2) = exp(k)*exp(b*xi2)` and
`1 + (alpha + i*xi) = (1 + alpha) + i*xi`. -/
theorem Gsource_eq_Gclaim (alpha K L U C : ℝ) (call : Bool) (xi : ℝ) :
    Gsource alpha K L U C call xi = Gclaim alpha K L U C call xi := by
  simp only [Gsource, Gclaim]
  rw [Complex.exp_add, Complex.exp_add]
  have hz : 1 + ((alpha : ℂ) + (xi : ℂ) * I) = 1 + (alpha : ℂ) + (xi : ℂ) * I := by ring
  rw [hz]
  ring

/-- Claim C1 (amended): the returned transform entry is the specification's
closed form `G(xi)` at every index, except at the zero-frequency bin `n/2`
when `alpha = 0` or `alpha = -1` (there the source substitutes the analytic
limit instead). -/
theorem payoffG_eq_closed_form (n : ℕ) (xi : ℕ → ℝ) (alpha K L U C : ℝ) (call : Bool)
    (i : ℕ) (h : (alpha ≠ 0 ∧ alpha ≠ -1) ∨ i ≠ n / 2) :
    payoffG n xi alpha K L U C call i = Gclaim alpha K L U C call (xi i) := by
  unfold payoffG
  rcases h with ⟨h0, h1⟩ | hi
  · rw [if_neg (by tauto), if_neg (by tauto)]
    exact Gsource_eq_Gclaim alpha K L U C call (xi i)
  · rw [if_neg (by tauto), if_neg (by tauto)]
    exact Gsource_eq_Gclaim alpha K L U C call (xi i)

/-- Witness for `payoffG_eq_closed_form` at `alpha = 1` (admissible interior
index): `n = 2`, zero frequency, unit strike/barriers. -/
theorem payoffG_eq_closed_form_witness :
    payoffG 2 (fun _ => 0) 1 1 1 1 1 true 0 = Gclaim 1 1 1 1 1 true 0 :=
  payoffG_eq_closed_form 2 (fun _ => 0) 1 1 1 1 1 true 0 (Or.inl ⟨by norm_num, by norm_num⟩)

/-- Counterexample to claim C1 as stated: with `alpha = 0`, a one-point grid
(`xi = 0` at index `0 = floor(1/2)`), `K = L = C = 1` and `U = e`, the source
replaces the zero-frequency entry by the analytic limit `e - 2`, which differs
from the claim's formula value (`e - 1` under total division; in floating
point the formula yields `0/0 = NaN`, which is also not the returned value). -/
theorem payoffG_formula_counterexample :
    payoffG 1 (fun _ => 0) 0 1 1 (Real.exp 1) 1 true 0 ≠
      Gclaim 0 1 1 (Real.exp 1) 1 true 0 := by
  have hb : intervalB 1 (Real.exp 1) 1 true = 1 := by
    unfold intervalB
    simp [Real.log_exp]
  have ha : intervalA 1 1 (Real.exp 1) 1 true = 0 := by
    unfold intervalA
    simp
  have hlhs : payoffG 1 (fun _ => 0) 0 1 1 (Real.exp 1) 1 true 0 =
      ((Real.exp 1 - Real.exp 0 - Real.exp 0 * (1 - 0) : ℝ) : ℂ) := by
    unfold payoffG
    rw [if_pos ⟨rfl, rfl⟩, hb, ha]
    norm_num [Real.log_one]
  have hrhs : Gclaim 0 1 1 (Real.exp 1) 1 true 0 =
      (Complex.exp 1 - Complex.exp 0) := by
    unfold Gclaim
    rw [hb, ha]
    norm_num [Real.log_one]
  rw [hlhs, hrhs]
  intro hcontra
  have h1 : ((Real.exp 1 - Real.exp 0 - Real.exp 0 * (1 - 0) : ℝ) : ℂ) =
      ((Real.exp 1 - Real.exp 0 : ℝ) : ℂ) := by
    rw [hcontra]
    push_cast
    ring
  rw [Complex.ofReal_inj] at h1
  have := Real.exp_pos 0
  nlinarith [h1]

/-- Trapezoidal rule as full sum minus the half-weighted endpoints (complex). -/
theorem trapzC_eq (n : ℕ) (hn : 0 < n) (y : ℕ → ℂ) :
    trapzC n y = (∑ k ∈ Finset.range n, y k) - (y 0 + y (n - 1)) / 2 := by
  obtain ⟨m, rfl⟩ : ∃ m, n = m + 1 := ⟨n - 1, by omega⟩
  unfold trapzC
  simp only [Nat.add_sub_cancel]
  rw [← Finset.sum_div, Finset.sum_add_distrib]
  have hA := Finset.sum_range_succ y m
  have hB := Finset.sum_range_succ' y m
  linear_combination (-(1 : ℂ) / 2) * hA + (-(1 : ℂ) / 2) * hB

/-- Trapezoidal rule as full sum minus the half-weighted endpoints (real). -/
theorem trapzR_eq (n : ℕ) (hn : 0 < n) (y : ℕ → ℝ) :
    trapzR n y = (∑ k ∈ Finset.range n, y k) - (y 0 + y (n - 1)) / 2 := by
  obtain ⟨m, rfl⟩ : ∃ m, n = m + 1 := ⟨n - 1, by omega⟩
  unfold trapzR
  simp only [Nat.add_sub_cancel]
  rw [← Finset.sum_div, Finset.sum_add_distrib]
  have hA := Finset.sum_range_succ y m
  have hB := Finset.sum_range_succ' y m
  linear_combination (-(1 : ℝ) / 2) * hA + (-(1 : ℝ) / 2) * hB

/-- Summing a sequence over a cyclic index shift leaves the sum unchanged. -/
theorem sum_range_shift (n c : ℕ) (hn : 0 < n) (hc : c ≤ n) (f : ℕ → ℂ) :
    ∑ k ∈ Finset.range n, f ((k + c) % n) = ∑ k ∈ Finset.range n, f k := by
  refine Finset.sum_nbij' (fun k => (k + c) % n) (fun k => (k + (n - c)) % n)
    (fun a _ => Finset.mem_range.mpr (Nat.mod_lt _ hn))
    (fun a _ => Finset.mem_range.mpr (Nat.mod_lt _ hn)) ?_ ?_ (fun a _ => rfl)
  · intro a ha
    rw [Finset.mem_range] at ha
    show ((a + c) % n + (n - c)) % n = a
    rw [Nat.mod_add_mod, add_assoc, Nat.add_sub_cancel' hc, Nat.add_mod_right,
      Nat.mod_eq_of_lt ha]
  · intro a ha
    rw [Finset.mem_range] at ha
    show ((a + (n - c)) % n + c) % n = a
    rw [Nat.mod_add_mod, add_assoc, Nat.sub_add_cancel hc, Nat.add_mod_right,
      Nat.mod_eq_of_lt ha]

/-- The DFT at frequency index `0` is the plain sum of the input. -/
theorem dftN_zero (n : ℕ) (v : ℕ → ℂ) :
    dftN n v 0 = ∑ k ∈ Finset.range n, v k := by
  unfold dftN
  refine Finset.sum_congr rfl fun k _ => ?_
  norm_num

/-- The pricing arrays are read off at the spot index `n/2`; there the
shift-transform-shift composition collapses to the plain sum of the input. -/
theorem spot_value (n : ℕ) (hn : 0 < n) (v : ℕ → ℂ) :
    fftshiftN n (dftN n (ifftshiftN n v)) (n / 2) = ∑ k ∈ Finset.range n, v k := by
  unfold fftshiftN
  have h1 : (n / 2 + (n - n / 2)) % n = 0 := by
    rw [Nat.add_sub_cancel' (Nat.div_le_self n 2), Nat.mod_self]
  rw [h1, dftN_zero]
  unfold ifftshiftN
  exact sum_range_shift n (n / 2) hn (Nat.div_le_self n 2) v

/-- A nontrivial `n`-th root of unity `exp(-2*pi*i*k/n)` with `0 < k < n` is
not `1`. -/
theorem exp_root_ne_one (n k : ℕ) (hk0 : 0 < k) (hkn : k < n) :
    Complex.exp (-(2 * (Real.pi : ℂ) * I * (k : ℂ)) / (n : ℂ)) ≠ 1 := by
  have hn : 0 < n := lt_trans hk0 hkn
  have hn0 : (n : ℝ) ≠ 0 := Nat.cast_ne_zero.mpr hn.ne'
  have harg : -(2 * (Real.pi : ℂ) * I * (k : ℂ)) / (n : ℂ) =
      ((-(2 * Real.pi * k / n) : ℝ) : ℂ) * I := by
    push_cast
    field_simp
    ring
  rw [harg]
  intro h
  have hre := congrArg Complex.re h
  rw [Complex.exp_ofReal_mul_I_re, Complex.one_re] at hre
  have hklt : (k : ℝ) / n < 1 := by
    rw [div_lt_one (by positivity)]
    exact_mod_cast hkn
  have hb1 : -(2 * Real.pi) < -(2 * Real.pi * k / n) := by
    have : 2 * Real.pi * k / n < 2 * Real.pi := by
      have hpi : 0 < 2 * Real.pi := by positivity
      calc 2 * Real.pi * k / n = 2 * Real.pi * ((k : ℝ) / n) := by ring
        _ < 2 * Real.pi * 1 := by
            apply mul_lt_mul_of_pos_left hklt hpi
        _ = 2 * Real.pi := by ring
    linarith
  have hb2 : -(2 * Real.pi * k / n) < 2 * Real.pi := by
    have hpos : 0 ≤ 2 * Real.pi * k / n := by positivity
    have hpi : 0 < 2 * Real.pi := by positivity
    linarith
  have hzero := (Real.cos_eq_one_iff_of_lt_of_lt hb1 hb2).mp hre
  have hkpos : (0 : ℝ) < (k : ℝ) := by exact_mod_cast hk0
  have : 0 < 2 * Real.pi * k / n := by positivity
  linarith [hzero]

/-- Geometric sum of the powers `exp(-2*pi*i*m*k/n)` over `m < n`: equals `n`
when `k = 0` and vanishes otherwise. -/
theorem sum_exp_geom (n k : ℕ) (hn : 0 < n) (hkn : k < n) :
    ∑ m ∈ Finset.range n, Complex.exp (-(2 * (Real.pi : ℂ) * I * (m : ℂ) * (k : ℂ)) / (n : ℂ)) =
      if k = 0 then (n : ℂ) else 0 := by
  by_cases hk : k = 0
  · subst hk
    rw [if_pos rfl]
    have : ∀ m ∈ Finset.range n,
        Complex.exp (-(2 * (Real.pi : ℂ) * I * (m : ℂ) * ((0 : ℕ) : ℂ)) / (n : ℂ)) = 1 := by
      intro m _
      norm_num
    rw [Finset.sum_congr rfl this, Finset.sum_const, Finset.card_range]
    simp
  · rw [if_neg hk]
    have hn0 : (n : ℂ) ≠ 0 := Nat.cast_ne_zero.mpr hn.ne'
    set z : ℂ := Complex.exp (-(2 * (Real.pi : ℂ) * I * (k : ℂ)) / (n : ℂ)) with hz
    have hterm : ∀ m : ℕ,
        Complex.exp (-(2 * (Real.pi : ℂ) * I * (m : ℂ) * (k : ℂ)) / (n : ℂ)) = z ^ m := by
      intro m
      rw [hz, ← Complex.exp_nat_mul]
      congr 1
      ring
    have hzn : z ^ n = 1 := by
      rw [hz, ← Complex.exp_nat_mul]
      have : (n : ℂ) * (-(2 * (Real.pi : ℂ) * I * (k : ℂ)) / (n : ℂ)) =
          ((-(k : ℤ) : ℤ) : ℂ) * (2 * (Real.pi : ℂ) * I) := by
        push_cast
        field_simp
        ring
      rw [this]
      exact Complex.exp_int_mul_two_pi_mul_I (-(k : ℤ))
    have hz1 : z ≠ 1 := exp_root_ne_one n k (Nat.pos_of_ne_zero hk) hkn
    calc ∑ m ∈ Finset.range n,
          Complex.exp (-(2 * (Real.pi : ℂ) * I * (m : ℂ) * (k : ℂ)) / (n : ℂ))
        = ∑ m ∈ Finset.range n, z ^ m := Finset.sum_congr rfl fun m _ => hterm m
      _ = (z ^ n - 1) / (z - 1) := geom_sum_eq hz1 n
      _ = 0 := by rw [hzn]; simp

/-- The sum of all DFT coefficients is `n` times the first input entry. -/
theorem dftN_total (n : ℕ) (hn : 0 < n) (w : ℕ → ℂ) :
    ∑ m ∈ Finset.range n, dftN n w m = (n : ℂ) * w 0 := by
  unfold dftN
  rw [Finset.sum_comm]
  have hinner : ∀ k ∈ Finset.range n,
      (∑ m ∈ Finset.range n,
        w k * Complex.exp (-(2 * (Real.pi : ℂ) * I * (m : ℂ) * (k : ℂ)) / (n : ℂ))) =
      if k = 0 then (n : ℂ) * w 0 else 0 := by
    intro k hk
    rw [← Finset.mul_sum, sum_exp_geom n k hn (Finset.mem_range.mp hk)]
    by_cases hk0 : k = 0
    · subst hk0; rw [if_pos rfl, if_pos rfl]; ring
    · rw [if_neg hk0, if_neg hk0, mul_zero]
  rw [Finset.sum_congr rfl hinner, Finset.sum_ite_eq' (Finset.range n) 0
    (fun _ => (n : ℂ) * w 0), if_pos (Finset.mem_range.mpr hn)]

/-- Claim C10: conjugating the payoff transform instead of the characteristic
function yields the same real price at the spot:
`Re(sum_k G_k*conj(psi_k)) = Re(sum_k conj(G_k)*psi_k)`, so the two Plancherel
pricing cells read off the same value. -/
theorem price_conj_symmetry (n : ℕ) (hn : 0 < n) (G psi : ℕ → ℂ) (d w : ℝ) :
    priceFFT n G psi d w = priceFFT2 n G psi d w := by
  unfold priceFFT priceFFT2
  rw [spot_value n hn, spot_value n hn]
  have hconj : ∑ k ∈ Finset.range n, (starRingEnd ℂ) (G k) * psi k =
      (starRingEnd ℂ) (∑ k ∈ Finset.range n, G k * (starRingEnd ℂ) (psi k)) := by
    rw [map_sum]
    refine Finset.sum_congr rfl fun k _ => ?_
    rw [map_mul, Complex.conj_conj]
  rw [hconj, Complex.conj_re]

/-- Witness for `price_conj_symmetry` at `n = 2`, constant unit sequences. -/
theorem price_conj_symmetry_witness :
    priceFFT 2 (fun _ => 1) (fun _ => 1) 1 1 = priceFFT2 2 (fun _ => 1) (fun _ => 1) 1 1 :=
  price_conj_symmetry 2 (by norm_num) (fun _ => 1) (fun _ => 1) 1 1

/-- Claim C5 (amended): for identical inputs the transform-based price at the
spot and the direct trapezoidal-integration price differ exactly by the
trapezoidal edge term `discount*Re(y_0 + y_{n-1})/(2*width)` with
`y = conj(payoff_ft)*characteristic_fn`; consequently they agree within any
tolerance that bounds that edge term (which is small when the integrand has
decayed at the grid edges), but not unconditionally within `1e-6`. -/
theorem price_forms_edge_term (n : ℕ) (hn : 0 < n) (G psi : ℕ → ℂ) (d w : ℝ) :
    priceFFT n G psi d w - priceTrapz n G psi d w =
      d * ((starRingEnd ℂ) (G 0) * psi 0 +
        (starRingEnd ℂ) (G (n - 1)) * psi (n - 1)).re / (2 * w) ∧
    ∀ tol : ℝ,
      |d * ((starRingEnd ℂ) (G 0) * psi 0 +
        (starRingEnd ℂ) (G (n - 1)) * psi (n - 1)).re / (2 * w)| ≤ tol →
      |priceFFT n G psi d w - priceTrapz n G psi d w| ≤ tol := by
  have hmain : priceFFT n G psi d w - priceTrapz n G psi d w =
      d * ((starRingEnd ℂ) (G 0) * psi 0 +
        (starRingEnd ℂ) (G (n - 1)) * psi (n - 1)).re / (2 * w) := by
    unfold priceFFT priceTrapz
    rw [spot_value n hn, trapzC_eq n hn]
    have hconj : ∑ k ∈ Finset.range n, (starRingEnd ℂ) (G k) * psi k =
        (starRingEnd ℂ) (∑ k ∈ Finset.range n, G k * (starRingEnd ℂ) (psi k)) := by
      rw [map_sum]
      refine Finset.sum_congr rfl fun k _ => ?_
      rw [map_mul, Complex.conj_conj]
    rw [Complex.sub_re, hconj, Complex.conj_re, Complex.div_ofNat_re]
    ring
  exact ⟨hmain, fun tol htol => by rw [hmain]; exact htol⟩

/-- Witness for `price_forms_edge_term` (first conjunct) at `n = 2`, constant
unit sequences. -/
theorem price_forms_edge_term_witness :
    priceFFT 2 (fun _ => 1) (fun _ => 1) 1 1 - priceTrapz 2 (fun _ => 1) (fun _ => 1) 1 1 =
      1 * ((starRingEnd ℂ) 1 * 1 + (starRingEnd ℂ) 1 * 1).re / (2 * 1) :=
  (price_forms_edge_term 2 (by norm_num) (fun _ => 1) (fun _ => 1) 1 1).1

/-- Counterexample to claim C5 as stated: with `n = 2`, constant unit payoff
transform and characteristic function, unit discount and width, the
transform-based price is `2` while the trapezoidal price is `1`; they do not
agree within `1e-6` for these identical inputs. -/
theorem price_forms_counterexample :
    ¬ |priceFFT 2 (fun _ => 1) (fun _ => 1) 1 1 -
        priceTrapz 2 (fun _ => 1) (fun _ => 1) 1 1| ≤ 1e-6 := by
  have hfft : priceFFT 2 (fun _ => 1) (fun _ => 1) 1 1 = 2 := by
    unfold priceFFT
    rw [spot_value 2 (by norm_num)]
    norm_num
  have htrapz : priceTrapz 2 (fun _ => 1) (fun _ => 1) 1 1 = 1 := by
    unfold priceTrapz trapzC
    norm_num
  rw [hfft, htrapz]
  norm_num

/-- Claim C7: if the sampled characteristic function equals `1` at the
zero-frequency index `n/2`, the recovered density, integrated over the
real-space grid by the trapezoidal rule (with spacing `dx = w/n`), is within
`w*M/n` of `1`, where `M` bounds the density's two grid-edge values; the
tolerance tightens as the grid size `n` grows. -/
theorem density_integrates_to_one (n : ℕ) (psi : ℕ → ℂ) (w M : ℝ)
    (hn : 0 < n) (hw : 0 < w) (hpsi : psi (n / 2) = 1)
    (h0 : |recoverDensity n psi w 0| ≤ M)
    (h1 : |recoverDensity n psi w (n - 1)| ≤ M) :
    |trapzR n (fun k => recoverDensity n psi w k * dxStep w n) - 1| ≤ w * M / n := by
  have hn0 : (n : ℝ) ≠ 0 := Nat.cast_ne_zero.mpr hn.ne'
  have hw0 : w ≠ 0 := ne_of_gt hw
  have hsumF : ∑ k ∈ Finset.range n, fftshiftN n (dftN n (ifftshiftN n psi)) k = (n : ℂ) := by
    unfold fftshiftN
    rw [sum_range_shift n (n - n / 2) hn (Nat.sub_le n (n / 2)) (dftN n (ifftshiftN n psi)),
      dftN_total n hn]
    unfold ifftshiftN
    have hmid : (0 + n / 2) % n = n / 2 := by
      rw [Nat.zero_add, Nat.mod_eq_of_lt (Nat.div_lt_self hn (by norm_num))]
    rw [hmid, hpsi, mul_one]
  have hsumf : ∑ k ∈ Finset.range n, recoverDensity n psi w k = (n : ℝ) / w := by
    unfold recoverDensity
    rw [← Finset.sum_div, ← Complex.re_sum, hsumF, Complex.natCast_re]
  have hsum2 : ∑ k ∈ Finset.range n, recoverDensity n psi w k * dxStep w n = 1 := by
    rw [← Finset.sum_mul, hsumf]
    unfold dxStep
    field_simp
  rw [trapzR_eq n hn, hsum2]
  have hcancel : (1 : ℝ) -
      (recoverDensity n psi w 0 * dxStep w n +
        recoverDensity n psi w (n - 1) * dxStep w n) / 2 - 1 =
      -((recoverDensity n psi w 0 + recoverDensity n psi w (n - 1)) * (dxStep w n / 2)) := by
    ring
  rw [hcancel, abs_neg, abs_mul]
  have habs2 : |dxStep w n / 2| = dxStep w n / 2 :=
    abs_eq_self.mpr (by unfold dxStep; positivity)
  rw [habs2]
  have h2 : |recoverDensity n psi w 0 + recoverDensity n psi w (n - 1)| ≤ 2 * M :=
    (abs_add _ _).trans (by linarith)
  calc |recoverDensity n psi w 0 + recoverDensity n psi w (n - 1)| * (dxStep w n / 2)
      ≤ 2 * M * (dxStep w n / 2) := by
        apply mul_le_mul_of_nonneg_right h2
        unfold dxStep
        positivity
    _ = M * dxStep w n := by ring
    _ = w * M / n := by unfold dxStep; ring

/-- Witness for `density_integrates_to_one` at `n = 2`, constant unit
characteristic samples, unit width, edge bound `M = 2`. -/
theorem density_integrates_to_one_witness :
    |trapzR 2 (fun k => recoverDensity 2 (fun _ => 1) 1 k * dxStep 1 2) - 1| ≤ 1 * 2 / 2 := by
  have hexp : Complex.exp (-(2 * (Real.pi : ℂ) * I * ((1 : ℕ) : ℂ) * ((1 : ℕ) : ℂ)) /
      ((2 : ℕ) : ℂ)) = -1 := by
    have harg : -(2 * (Real.pi : ℂ) * I * ((1 : ℕ) : ℂ) * ((1 : ℕ) : ℂ)) / ((2 : ℕ) : ℂ) =
        -((Real.pi : ℂ) * I) := by
      push_cast
      ring
    rw [harg, Complex.exp_neg, Complex.exp_pi_mul_I]
    norm_num
  have hd0 : recoverDensity 2 (fun _ => (1 : ℂ)) 1 0 = 0 := by
    unfold recoverDensity fftshiftN dftN ifftshiftN
    rw [show ((0 + (2 - 2 / 2)) % 2) = 1 by norm_num]
    rw [Finset.sum_range_succ, Finset.sum_range_succ, Finset.sum_range_zero]
    have e0 : Complex.exp (-(2 * (Real.pi : ℂ) * I * ((1 : ℕ) : ℂ) * ((0 : ℕ) : ℂ)) /
        ((2 : ℕ) : ℂ)) = 1 := by norm_num
    rw [e0, hexp]
    norm_num
  have hd1 : recoverDensity 2 (fun _ => (1 : ℂ)) 1 (2 - 1) = 2 := by
    unfold recoverDensity fftshiftN dftN ifftshiftN
    rw [show (((2 - 1) + (2 - 2 / 2)) % 2) = 0 by norm_num]
    rw [Finset.sum_range_succ, Finset.sum_range_succ, Finset.sum_range_zero]
    norm_num
  exact density_integrates_to_one 2 (fun _ => 1) 1 2 (by norm_num) (by norm_num) rfl
    (by rw [hd0]; norm_num) (by rw [hd1]; norm_num)

/-- Claim C8 (amended): `payoff` performs no admissibility validation on
`alpha`. For the notebook's own driver choices — a call with `alpha = -1` and
a put with `alpha = 1` — the damped payoff and its transform are computed and
returned (the general closed form at every non-replaced index); there is no
error path in the code. -/
theorem payoff_no_alpha_validation (n : ℕ) (xi : ℕ → ℝ) (K L U C : ℝ) (i : ℕ)
    (hi : i ≠ n / 2) :
    payoffG n xi (-1) K L U C true i = Gsource (-1) K L U C true (xi i) ∧
    payoffG n xi 1 K L U C false i = Gsource 1 K L U C false (xi i) := by
  constructor
  · unfold payoffG
    rw [if_neg (by norm_num), if_neg (by tauto)]
  · unfold payoffG
    rw [if_neg (by norm_num), if_neg (by norm_num)]

/-- Witness for `payoff_no_alpha_validation` at `n = 2`, index `0`. -/
theorem payoff_no_alpha_validation_witness :
    payoffG 2 (fun _ => 0) (-1) 1.1 1 2 1 true 0 = Gsource (-1) 1.1 1 2 1 true 0 ∧
    payoffG 2 (fun _ => 0) 1 1.1 1 2 1 false 0 = Gsource 1 1.1 1 2 1 false 0 :=
  payoff_no_alpha_validation 2 (fun _ => 0) 1.1 1 2 1 0 (by norm_num)

/-- Counterexample to claim C8 as stated: the notebook prices a call with
damping `alpha = -1 ≤ 0` (strike `1.1`, window `[e^{-3}, e^3]`, scale `1`);
far from raising a `ConfigurationError` before any transform work, `payoff`
computes the damped payoff — at `x = 1` it is the strictly positive value
`exp(-1)*(e - 1.1)`. No error class exists anywhere in the code. -/
theorem payoff_alpha_counterexample :
    0 < payoff_g (-1) 1.1 (Real.exp (-3)) (Real.exp 3) 1 true 1 := by
  have h1 : Real.exp (-3) ≤ 1 * Real.exp 1 := by
    rw [one_mul]
    exact Real.exp_le_exp.mpr (by norm_num)
  have h2 : (1 : ℝ) * Real.exp 1 ≤ Real.exp 3 := by
    rw [one_mul]
    exact Real.exp_le_exp.mpr (by norm_num)
  have h3 : (0 : ℝ) < 1 * Real.exp 1 - 1.1 := by
    rw [one_mul]
    have := Real.add_one_le_exp 1
    linarith
  simp only [payoff_g]
  rw [if_pos h2, if_pos h1, if_pos trivial, mul_one, mul_one]
  have hmax : max (1 * Real.exp 1 - 1.1) 0 = 1 * Real.exp 1 - 1.1 := max_eq_left h3.le
  rw [hmax]
  exact mul_pos (Real.exp_pos _) h3

/-- Claim C9 (amended): the grid construction performs no power-of-two
validation and never fails: for every width and every `n` it deterministically
returns grids of length `2*(n/2)` with steps `dx = width/n` and
`dxi = 2*pi/width`. -/
theorem grid_construction_total (w : ℝ) (n : ℕ) :
    (xGrid w n).length = 2 * (n / 2) ∧ (xiGrid w n).length = 2 * (n / 2) ∧
    dxStep w n = w / n ∧ dxiStep w = 2 * Real.pi / w := by
  refine ⟨?_, ?_, rfl, rfl⟩
  · simp only [xGrid, List.length_map, List.length_range]
  · simp only [xiGrid, List.length_map, List.length_range]

/-- Counterexample to claim C9 as stated: `n = 6` is not a power of two, yet
the grid builder produces a grid (length `6`, step `dx = w/6 = 1` for
`w = 6`) instead of failing — no validation or error path exists in the
code. -/
theorem grid_power_of_two_counterexample :
    (¬ ∃ k : ℕ, 6 = 2 ^ k) ∧ (xGrid 6 6).length = 6 ∧ (xiGrid 6 6).length = 6 ∧
    dxStep 6 6 = 1 := by
  refine ⟨?_, ?_, ?_, ?_⟩
  · rintro ⟨k, hk⟩
    have hlt : k < 3 := by
      by_contra hge
      push_neg at hge
      have h8 : (2 : ℕ) ^ 3 ≤ 2 ^ k := Nat.pow_le_pow_right (by norm_num) hge
      rw [← hk] at h8
      norm_num at h8
    interval_cases k <;> norm_num at hk
  · simp only [xGrid, List.length_map, List.length_range]
  · simp only [xiGrid, List.length_map, List.length_range]
  · unfold dxStep
    norm_num

/-- Claim C6 (amended): the jump-diffusion characteristic function — and with
`lmbda = 0` its diffusion special case — evaluates to exactly `1 + 0i` at
frequency argument `0`, for every parameter set; the stochastic-volatility
closed form does not share this property at `phi = 0` (see the
counterexample), its zero-frequency value being a removable singularity. -/
theorem charJD_at_zero (r q sigma lmbda mu_j sigma_j T : ℝ) :
    charJD r q sigma lmbda mu_j sigma_j T 0 = 1 := by
  unfold charJD psiJD
  norm_num

/-- Counterexample to claim C6 as stated: for the stochastic-volatility
variant, with the Heston notebook's own parameters (`S0 = 55`, `v0 = 0.04`,
`T = 1`, `r = 0.04`, `q = 0.02`, `kappa = 2`, `theta = 0.04`, `sigma = 0.3`,
`rho = -0.7`, `lmbda = 0`, `j = 2`), evaluating the characteristic function at
frequency argument `0` does not return `1`: there `d = sqrt(b^2) = b`, so the
intermediate `g = (b+d)/(b-d)` divides by zero (in floating point the result
is `nan`, not `1`; under Lean's total division the value is
`exp((16/9)*(3 - e^2)) < 1`). -/
theorem heston_cf_zero_counterexample :
    f_Heston 0 55 0.04 1 0.04 0.02 2 0.04 0.3 (-0.7) 0 2 ≠ 1 := by
  have hd : ((4 : ℂ)) ^ ((1 : ℂ) / 2) = 2 := by
    have h1 : ((1 : ℂ) / 2) = ((1 / 2 : ℝ) : ℂ) := by norm_num
    have h4 : (4 : ℂ) = ((4 : ℝ) : ℂ) := by norm_num
    rw [h1, h4, ← Complex.ofReal_cpow (by norm_num : (0 : ℝ) ≤ 4)]
    have h5 : (4 : ℝ) ^ ((1 : ℝ) / 2) = 2 := by
      rw [show (4 : ℝ) = 2 ^ (2 : ℕ) by norm_num, ← Real.rpow_natCast 2 2,
        ← Real.rpow_mul (by norm_num)]
      norm_num
    rw [h5]
    norm_num
  simp only [f_Heston]
  norm_num
  rw [hd]
  norm_num [Complex.log_one]
  have h2 : (Complex.exp 2 : ℂ) = ((Real.exp 2 : ℝ) : ℂ) := by
    rw [Complex.ofReal_exp]
    norm_num
  rw [h2]
  have harg : (32 : ℂ) / 9 + 400 / 9 * (1 - ((Real.exp 2 : ℝ) : ℂ)) * (1 / 25) =
      ((32 / 9 + 400 / 9 * (1 - Real.exp 2) * (1 / 25) : ℝ) : ℂ) := by
    push_cast
    ring
  rw [harg, ← Complex.ofReal_exp]
  intro hcontra
  rw [show (1 : ℂ) = ((1 : ℝ) : ℂ) by norm_num, Complex.ofReal_inj] at hcontra
  rw [Real.exp_eq_one_iff] at hcontra
  have hgt : (3 : ℝ) < Real.exp 2 := by
    have hge : (2 : ℝ) ≤ Real.exp 1 := by
      have := Real.add_one_le_exp 1
      linarith
    have hsq : Real.exp 2 = Real.exp 1 * Real.exp 1 := by
      rw [← Real.exp_add]
      norm_num
    nlinarith
  nlinarith [hcontra, hgt]

end OptionPricing

end
